import Mathlib

/-!
Verification development for a small symbolic-expression library
(`expressions/expressions.py`).

The library represents arithmetic expressions as immutable trees built from
`Number` and `Symbol` terminals and the binary operator nodes `Add`, `Sub`,
`Mul`, `Div`, `Pow`; it renders them to text with precedence-driven
parenthesization, and differentiates them with a generic iterative post-order
visitor (`postvisitor`) driving a dispatch-by-node-kind rule table
(`differentiate`).

The shallow embedding below mirrors the source:
* `Expr` is the class hierarchy of expression nodes.  The extra constructor
  `Generic` stands for a node of a kind with no registered differentiation
  rule (a plain `Expression`, or an `Operator` subclass that was never
  registered with the `differentiate` single-dispatch table).
* Numeric payloads are modelled as rationals (the Python code mixes `int` and
  `float` payloads such as `Number(0.0)`; both live in the numeric tower and
  `1.0 == 1`, so `ℚ` identifies them).
* Fallible Python constructors (raising `TypeError` / `NotImplementedError`)
  are modelled with `Except String`.
* The traversal operates on an explicit heap of node instances: node identity
  is a natural-number id, `ops` maps an id to the ids of its operands in
  left-to-right order, and a finite acyclic DAG is embedded through a
  topological numbering (every operand id is strictly smaller than its
  parent's id — every finite acyclic DAG admits such a numbering).
-/

namespace Expressions

/-- The kinds of expression nodes of the source: `Number` and `Symbol`
terminals, the five registered binary operator classes, and `Generic name a b`
standing for a binary node of an unregistered kind named `name` (such as the
base class `Expression` itself). -/
inductive Expr where
  | Number (v : ℚ)
  | Symbol (s : String)
  | Add (a b : Expr)
  | Sub (a b : Expr)
  | Mul (a b : Expr)
  | Div (a b : Expr)
  | Pow (a b : Expr)
  | Generic (name : String) (a b : Expr)
  deriving DecidableEq, Inhabited

/-- Operand list of a node, left to right (`self.operands`).  Terminals have
`operands = ()`. -/
def Expr.operands : Expr → List Expr
  | .Number _ => []
  | .Symbol _ => []
  | .Add a b => [a, b]
  | .Sub a b => [a, b]
  | .Mul a b => [a, b]
  | .Div a b => [a, b]
  | .Pow a b => [a, b]
  | .Generic _ a b => [a, b]

/-- Python values that can be handed to `Number.__init__` or to a reflected
arithmetic operator: a numeric value, a string, or `None`.  (`isinstance(v,
numbers.Number)` distinguishes the first variant from the rest.) -/
inductive PyVal where
  | num (q : ℚ)
  | str (s : String)
  | pyNone
  deriving DecidableEq

/-- `isinstance(value, numbers.Number)`. -/
def PyVal.isNum : PyVal → Bool
  | .num _ => true
  | _ => false

/-- `type(value).__name__` for the modelled payload values. -/
def pyTypeName : PyVal → String
  | .num _ => "float"
  | .str _ => "str"
  | .pyNone => "NoneType"

/-- The `TypeError` message raised by `Number.__init__` (note the source
builds it from `type(Number).__name__`, which is the metaclass name
`"type"`). -/
def numTypeError (v : PyVal) : String :=
  "Val input of type: " ++ pyTypeName v ++ "Expected val of type type."

/-- `Number.__init__`: reject a non-numeric payload with a `TypeError` at
construction time, otherwise store the payload unchanged. -/
def mkNumber : PyVal → Except String Expr
  | .num q => .ok (.Number q)
  | v => .error (numTypeError v)

/-- `Expression.__radd__`: `other + self` with `other` unconditionally
promoted by `Number(other)`. -/
def radd (v : PyVal) (e : Expr) : Except String Expr :=
  (mkNumber v).map (fun n => .Add n e)

/-- `Expression.__rsub__`: `other - self`. -/
def rsub (v : PyVal) (e : Expr) : Except String Expr :=
  (mkNumber v).map (fun n => .Sub n e)

/-- `Expression.__rmul__`: `other * self`. -/
def rmul (v : PyVal) (e : Expr) : Except String Expr :=
  (mkNumber v).map (fun n => .Mul n e)

/-- `Expression.__rtruediv__`: `other / self`. -/
def rdiv (v : PyVal) (e : Expr) : Except String Expr :=
  (mkNumber v).map (fun n => .Div n e)

/-- `Expression.__rpow__`: `other ** self`. -/
def rpow (v : PyVal) (e : Expr) : Except String Expr :=
  (mkNumber v).map (fun n => .Pow n e)

/-- The `precedence` attribute: `Terminal.precedence = 0`, `Add`/`Sub` 3,
`Mul`/`Div` 2, `Pow` 1.  The base `Expression` class carries no precedence in
the source; `Generic` is assigned the terminal value 0, which no claim about
rendering depends on (rendering claims are stated for generic-free trees). -/
def Expr.precedence : Expr → Nat
  | .Number _ => 0
  | .Symbol _ => 0
  | .Add _ _ => 3
  | .Sub _ _ => 3
  | .Mul _ _ => 2
  | .Div _ _ => 2
  | .Pow _ _ => 1
  | .Generic _ _ _ => 0

/-- Render a terminal numeric payload (`str(self.value)`). -/
def ratStr (q : ℚ) : String := toString q

/-- The parenthesization step of `Operator.__str__`: wrap the rendered operand
in parentheses exactly when the operand's `precedence` is strictly greater
than the current operator's. -/
def parenWrap (ownPrec childPrec : Nat) (s : String) : String :=
  if childPrec > ownPrec then "(" ++ s ++ ")" else s

/-- `__str__`: terminals render their payload; an operator node renders
`"<left> <symbol> <right>"` with each operand parenthesized iff its
`precedence` exceeds the operator's.  (`Generic` nodes have no `__str__` in
the source; they render as an opaque default tag here.) -/
def strExpr : Expr → String
  | .Number v => ratStr v
  | .Symbol s => s
  | .Add a b =>
      parenWrap 3 a.precedence (strExpr a) ++ " + " ++ parenWrap 3 b.precedence (strExpr b)
  | .Sub a b =>
      parenWrap 3 a.precedence (strExpr a) ++ " - " ++ parenWrap 3 b.precedence (strExpr b)
  | .Mul a b =>
      parenWrap 2 a.precedence (strExpr a) ++ " * " ++ parenWrap 2 b.precedence (strExpr b)
  | .Div a b =>
      parenWrap 2 a.precedence (strExpr a) ++ " / " ++ parenWrap 2 b.precedence (strExpr b)
  | .Pow a b =>
      parenWrap 1 a.precedence (strExpr a) ++ " ^ " ++ parenWrap 1 b.precedence (strExpr b)
  | .Generic n _ _ => "<" ++ n ++ " object>"

/-- Modelled from the spec: the precedence-rank table of the rendering
contract — "ranks observed: Power=1 tightest, Multiply/Divide=2, Add/Subtract=3
loosest", with terminal nodes ranked tightest of all (rank 0). -/
def specRank : Expr → Nat
  | .Number _ => 0
  | .Symbol _ => 0
  | .Pow _ _ => 1
  | .Mul _ _ => 2
  | .Div _ _ => 2
  | .Add _ _ => 3
  | .Sub _ _ => 3
  | .Generic _ _ _ => 0

/-- Modelled from the spec: the rendering contract — an operator node renders
as `"<left> <symbol> <right>"`, wrapping an operand in parentheses if and only
if that operand's rank is numerically greater than the current operator's
rank, terminals rendering as their payload. -/
def strSpec : Expr → String
  | .Number v => ratStr v
  | .Symbol s => s
  | .Add a b =>
      parenWrap 3 (specRank a) (strSpec a) ++ " + " ++ parenWrap 3 (specRank b) (strSpec b)
  | .Sub a b =>
      parenWrap 3 (specRank a) (strSpec a) ++ " - " ++ parenWrap 3 (specRank b) (strSpec b)
  | .Mul a b =>
      parenWrap 2 (specRank a) (strSpec a) ++ " * " ++ parenWrap 2 (specRank b) (strSpec b)
  | .Div a b =>
      parenWrap 2 (specRank a) (strSpec a) ++ " / " ++ parenWrap 2 (specRank b) (strSpec b)
  | .Pow a b =>
      parenWrap 1 (specRank a) (strSpec a) ++ " ^ " ++ parenWrap 1 (specRank b) (strSpec b)
  | .Generic n _ _ => "<" ++ n ++ " object>"

/-- `true` iff the expression contains no node of an unregistered kind, i.e.
it is built only from the seven classes the source actually defines. -/
def genericFree : Expr → Bool
  | .Number _ => true
  | .Symbol _ => true
  | .Add a b => genericFree a && genericFree b
  | .Sub a b => genericFree a && genericFree b
  | .Mul a b => genericFree a && genericFree b
  | .Div a b => genericFree a && genericFree b
  | .Pow a b => genericFree a && genericFree b
  | .Generic _ _ _ => false

/-- The `differentiate` single-dispatch table.  The first argument is the node
being combined, the second the already-computed results for its operands in
left-to-right order (`*o`), the third the keyword argument `var`.  Rules that
index `o[0]`/`o[1]` on a too-short result list raise `IndexError` in Python,
modelled as an error; an unregistered kind falls through to the base
implementation, which raises `NotImplementedError(f"Cannot differentiate a
{type(expr).__name__}")`. -/
def differentiate : Expr → List Expr → String → Except String Expr
  | .Number _, _, _ => .ok (.Number 0)
  | .Symbol s, _, var => .ok (if s = var then .Number 1 else .Number 0)
  | .Add _ _, o0 :: o1 :: _, _ => .ok (.Add o0 o1)
  | .Add _ _, _, _ => .error "IndexError"
  | .Sub _ _, o0 :: o1 :: _, _ => .ok (.Sub o0 o1)
  | .Sub _ _, _, _ => .error "IndexError"
  | .Mul a b, o0 :: o1 :: _, _ => .ok (.Add (.Mul o0 b) (.Mul o1 a))
  | .Mul _ _, _, _ => .error "IndexError"
  | .Div a b, o0 :: o1 :: _, _ =>
      .ok (.Div (.Sub (.Mul o0 b) (.Mul a o1)) (.Pow b (.Number 2)))
  | .Div _ _, _, _ => .error "IndexError"
  | .Pow a b, o0 :: _, _ => .ok (.Mul (.Mul b (.Pow a (.Sub b (.Number 1)))) o0)
  | .Pow _ _, [], _ => .error "IndexError"
  | .Generic name _ _, _, _ => .error ("Cannot differentiate a " ++ name)

/-- Modelled from the spec: the semantic evaluation of an expression under an
assignment of rational values to symbols, used to formalise the spec's word
"equivalent" for derivative results.  Powers are evaluated only at integer
exponents; a `Generic` node has no value. -/
def evalExpr : Expr → (String → ℚ) → Option ℚ
  | .Number v, _ => some v
  | .Symbol s, env => some (env s)
  | .Add a b, env => do
      return (← evalExpr a env) + (← evalExpr b env)
  | .Sub a b, env => do
      return (← evalExpr a env) - (← evalExpr b env)
  | .Mul a b, env => do
      return (← evalExpr a env) * (← evalExpr b env)
  | .Div a b, env => do
      return (← evalExpr a env) / (← evalExpr b env)
  | .Pow a b, env => do
      let x ← evalExpr a env
      let y ← evalExpr b env
      if y.den = 1 then return x ^ y.num else none
  | .Generic _ _ _, _ => none

/-!
## The generic post-order traversal (`postvisitor`)

The source visits a DAG of node *instances*, keyed by object identity, with an
explicit work stack and a memo dictionary.  The embedding names instances by
natural-number ids: `ops i` is the list of operand ids of node `i` in
left-to-right order.  A finite acyclic DAG is embedded via a topological
numbering, expressed by the hypothesis `∀ i j, j ∈ ops i → j < i`.  The memo
dictionary is a partial map `Nat → Option R`; the visitor state also records
the list of combine-function invocations (node id and the operand-result list
passed), which the Python code does not store but which the claims count.
-/

/-- The mutable state of the `postvisitor` loop: the work stack (head = top),
the memo dictionary `visited`, and the trace of combine-function invocations
made so far (node id, operand results passed). -/
structure VState (R : Type) where
  stack : List Nat
  visited : Nat → Option R
  log : List (Nat × List R)

/-- One iteration of the `while stack:` loop of `postvisitor`.  On an empty
stack the state is returned unchanged (the loop has finished).  Otherwise the
top node `e` is popped; its operands not yet in `visited` are collected (in
operand order, duplicates kept, exactly as the source's `for o in e.operands`
loop does); if any exist, `e` is re-pushed followed by each of them (so the
last one pushed is on top); otherwise `fn` is applied to `e`, the memoized
operand results in left-to-right order, and the unchanged keyword context, and
the result is stored in `visited[e]`. -/
def pvStep {R C : Type} [Inhabited R] (ops : Nat → List Nat)
    (fn : Nat → List R → C → R) (ctx : C) (st : VState R) : VState R :=
  match st.stack with
  | [] => st
  | e :: rest =>
      let unvis := (ops e).filter (fun o => (st.visited o).isNone)
      if unvis = [] then
        let args := (ops e).map (fun o => (st.visited o).getD default)
        { stack := rest
          visited := Function.update st.visited e (some (fn e args ctx))
          log := st.log ++ [(e, args)] }
      else
        { stack := unvis.reverse ++ e :: rest
          visited := st.visited
          log := st.log }

/-- The initial `postvisitor` state: work stack seeded with the root, empty
memo dictionary, no calls made. -/
def pvInit {R : Type} (root : Nat) : VState R :=
  { stack := [root], visited := fun _ => none, log := [] }

/-- `postvisitor expr fn ctx` after `fuel` loop iterations: the entry the memo
dictionary holds for the root (`return visited[expr]`). -/
def postvisitor {R C : Type} [Inhabited R] (ops : Nat → List Nat)
    (fn : Nat → List R → C → R) (ctx : C) (root : Nat) (fuel : Nat) : Option R :=
  ((pvStep ops fn ctx)^[fuel] (pvInit root)).visited root

/-- Bottom-up evaluation of the DAG, fuel-bounded: `denoteF (fuel+1) i`
applies `fn` to `i`, the values of its operands at fuel `fuel`, and the
context.  On a topologically numbered DAG the value is independent of the fuel
once it exceeds the id (`denoteF_stable`). -/
def denoteF {R C : Type} [Inhabited R] (ops : Nat → List Nat)
    (fn : Nat → List R → C → R) (ctx : C) : Nat → Nat → R
  | 0, _ => default
  | fuel + 1, i => fn i ((ops i).map (denoteF ops fn ctx fuel)) ctx

/-- The intended bottom-up value of node `i`: `fn` applied to `i`, the values
of its operands in left-to-right order, and the context.  (Well-defined by
`denote_eq` when operand ids are strictly smaller than their parent's.) -/
def denote {R C : Type} [Inhabited R] (ops : Nat → List Nat)
    (fn : Nat → List R → C → R) (ctx : C) (i : Nat) : R :=
  denoteF ops fn ctx (i + 1) i

/-- Reachability along operand references: the node instances of the sub-DAG
rooted at a node. -/
inductive Reach (ops : Nat → List Nat) : Nat → Nat → Prop where
  | refl (i : Nat) : Reach ops i i
  | step {i j k : Nat} : j ∈ ops i → Reach ops j k → Reach ops i k

theorem listMapCongr {α β : Type} {l : List α} {f g : α → β}
    (h : ∀ a ∈ l, f a = g a) : l.map f = l.map g := by
  induction l with
  | nil => rfl
  | cons x xs ih =>
      simp only [List.map_cons]
      rw [h x (by simp), ih (fun a ha => h a (by simp [ha]))]

theorem denoteF_stable {R C : Type} [Inhabited R] (ops : Nat → List Nat)
    (hops : ∀ i j, j ∈ ops i → j < i) (fn : Nat → List R → C → R) (ctx : C) :
    ∀ i f1 f2, i < f1 → i < f2 →
      denoteF ops fn ctx f1 i = denoteF ops fn ctx f2 i := by
  intro i
  induction i using Nat.strong_induction_on with
  | _ i IH =>
    intro f1 f2 h1 h2
    match f1, f2 with
    | g1 + 1, g2 + 1 =>
      simp only [denoteF]
      congr 1
      apply listMapCongr
      intro j hj
      have hji : j < i := hops i j hj
      exact IH j hji g1 g2 (by omega) (by omega)

theorem denote_eq {R C : Type} [Inhabited R] (ops : Nat → List Nat)
    (hops : ∀ i j, j ∈ ops i → j < i) (fn : Nat → List R → C → R) (ctx : C)
    (i : Nat) :
    denote ops fn ctx i = fn i ((ops i).map (denote ops fn ctx)) ctx := by
  show denoteF ops fn ctx (i + 1) i = _
  simp only [denoteF]
  congr 1
  apply listMapCongr
  intro j hj
  exact denoteF_stable ops hops fn ctx j i (j + 1) (hops i j hj) (Nat.lt_succ_self j)

/-- The loop invariant of `postvisitor`: every memoized entry holds the
intended bottom-up value of its node, the memoized set is closed under
operands, and every logged invocation received exactly the operands' values in
left-to-right order. -/
structure PVInv {R C : Type} [Inhabited R] (ops : Nat → List Nat)
    (fn : Nat → List R → C → R) (ctx : C)
    (v : Nat → Option R) (log : List (Nat × List R)) : Prop where
  coh : ∀ i r, v i = some r → r = denote ops fn ctx i
  closed : ∀ i, (v i).isSome → ∀ j, j ∈ ops i → (v j).isSome
  logOk : ∀ p, p ∈ log → p.2 = (ops p.1).map (denote ops fn ctx)

theorem pvStep_nil {R C : Type} [Inhabited R] (ops : Nat → List Nat)
    (fn : Nat → List R → C → R) (ctx : C) (st : VState R) (h : st.stack = []) :
    pvStep ops fn ctx st = st := by
  unfold pvStep
  rw [h]

theorem pvIter_nil {R C : Type} [Inhabited R] (ops : Nat → List Nat)
    (fn : Nat → List R → C → R) (ctx : C) (st : VState R) (h : st.stack = []) :
    ∀ m, (pvStep ops fn ctx)^[m] st = st := by
  intro m
  induction m with
  | zero => rfl
  | succ m ih =>
      rw [Function.iterate_succ_apply, pvStep_nil ops fn ctx st h, ih]

theorem pvIter_comp {R C : Type} [Inhabited R] (ops : Nat → List Nat)
    (fn : Nat → List R → C → R) (ctx : C) (k1 k2 : Nat) (st st1 st2 : VState R)
    (h1 : (pvStep ops fn ctx)^[k1] st = st1)
    (h2 : (pvStep ops fn ctx)^[k2] st1 = st2) :
    (pvStep ops fn ctx)^[k2 + k1] st = st2 := by
  rw [Function.iterate_add_apply, h1, h2]

theorem pvStep_visit {R C : Type} [Inhabited R] (ops : Nat → List Nat)
    (fn : Nat → List R → C → R) (ctx : C) (e : Nat) (s : List Nat)
    (v : Nat → Option R) (log : List (Nat × List R))
    (hready : ∀ o ∈ ops e, (v o).isSome) :
    pvStep ops fn ctx ⟨e :: s, v, log⟩ =
      ⟨s, Function.update v e
            (some (fn e ((ops e).map (fun o => (v o).getD default)) ctx)),
        log ++ [(e, (ops e).map (fun o => (v o).getD default))]⟩ := by
  have hfil : (ops e).filter (fun o => (v o).isNone) = [] := by
    rw [List.filter_eq_nil_iff]
    intro a ha
    have h := hready a ha
    obtain ⟨r, hr⟩ := Option.isSome_iff_exists.mp h
    simp [hr]
  simp [pvStep, hfil]

theorem pvStep_push {R C : Type} [Inhabited R] (ops : Nat → List Nat)
    (fn : Nat → List R → C → R) (ctx : C) (e : Nat) (s : List Nat)
    (v : Nat → Option R) (log : List (Nat × List R))
    (hne : (ops e).filter (fun o => (v o).isNone) ≠ []) :
    pvStep ops fn ctx ⟨e :: s, v, log⟩ =
      ⟨((ops e).filter (fun o => (v o).isNone)).reverse ++ e :: s, v, log⟩ := by
  simp [pvStep, hne]

/-- Relation between the memo/log at the start and at the end of a completed
segment of the `postvisitor` loop: the invariant holds at the end, memoized
entries are preserved unchanged, every newly memoized node was passed to the
combine function during the segment, and the call trace only grew. -/
structure PVPost {R C : Type} [Inhabited R] (ops : Nat → List Nat)
    (fn : Nat → List R → C → R) (ctx : C)
    (v : Nat → Option R) (log : List (Nat × List R))
    (v2 : Nat → Option R) (log2 : List (Nat × List R)) : Prop where
  inv : PVInv ops fn ctx v2 log2
  mono : ∀ i, (v i).isSome → v2 i = v i
  newLogged : ∀ i, (v2 i).isSome → (v i).isSome ∨ i ∈ log2.map Prod.fst
  grew : ∃ t, log2 = log ++ t

theorem pvpost_refl {R C : Type} [Inhabited R] (ops : Nat → List Nat)
    (fn : Nat → List R → C → R) (ctx : C)
    (v : Nat → Option R) (log : List (Nat × List R))
    (hinv : PVInv ops fn ctx v log) : PVPost ops fn ctx v log v log :=
  ⟨hinv, fun _ _ => rfl, fun _ h => Or.inl h, ⟨[], by simp⟩⟩

theorem pvpost_trans {R C : Type} [Inhabited R] (ops : Nat → List Nat)
    (fn : Nat → List R → C → R) (ctx : C)
    (v : Nat → Option R) (log : List (Nat × List R))
    (v1 : Nat → Option R) (log1 : List (Nat × List R))
    (v2 : Nat → Option R) (log2 : List (Nat × List R))
    (h1 : PVPost ops fn ctx v log v1 log1)
    (h2 : PVPost ops fn ctx v1 log1 v2 log2) :
    PVPost ops fn ctx v log v2 log2 := by
  refine ⟨h2.inv, ?_, ?_, ?_⟩
  · intro i hi
    have hv1 := h1.mono i hi
    have hv1s : (v1 i).isSome := by rw [hv1]; exact hi
    rw [h2.mono i hv1s, hv1]
  · intro i hi
    rcases h2.newLogged i hi with h | h
    · rcases h1.newLogged i h with h' | h'
      · exact Or.inl h'
      · right
        obtain ⟨t, ht⟩ := h2.grew
        rw [ht]
        simp only [List.map_append, List.mem_append]
        exact Or.inl h'
    · exact Or.inr h
  · obtain ⟨t1, ht1⟩ := h1.grew
    obtain ⟨t2, ht2⟩ := h2.grew
    exact ⟨t1 ++ t2, by rw [ht2, ht1, List.append_assoc]⟩

/-- Popping a node all of whose operands are memoized performs its combine
call: the arguments are the operands' bottom-up values in left-to-right order,
the memo gains the node's bottom-up value, and the call is appended to the
trace. -/
theorem pv_visit_post {R C : Type} [Inhabited R] (ops : Nat → List Nat)
    (hops : ∀ i j, j ∈ ops i → j < i) (fn : Nat → List R → C → R) (ctx : C)
    (e : Nat) (s : List Nat) (v : Nat → Option R) (log : List (Nat × List R))
    (hready : ∀ o ∈ ops e, (v o).isSome) (hinv : PVInv ops fn ctx v log) :
    ∃ v2 log2, pvStep ops fn ctx ⟨e :: s, v, log⟩ = ⟨s, v2, log2⟩ ∧
      PVPost ops fn ctx v log v2 log2 ∧ (v2 e).isSome := by
  have hargs : (ops e).map (fun o => (v o).getD default) =
      (ops e).map (denote ops fn ctx) := by
    apply listMapCongr
    intro o ho
    obtain ⟨r, hr⟩ := Option.isSome_iff_exists.mp (hready o ho)
    rw [hr, Option.getD_some]
    exact hinv.coh o r hr
  have hval : fn e ((ops e).map (fun o => (v o).getD default)) ctx =
      denote ops fn ctx e := by
    rw [hargs]
    exact (denote_eq ops hops fn ctx e).symm
  refine ⟨_, _, pvStep_visit ops fn ctx e s v log hready, ⟨⟨?_, ?_, ?_⟩, ?_, ?_, ?_⟩, ?_⟩
  · -- coherence of the updated memo
    intro i r hir
    by_cases hie : i = e
    · subst hie
      rw [Function.update_same] at hir
      have hr : r = fn i ((ops i).map (fun o => (v o).getD default)) ctx :=
        (Option.some.inj hir).symm
      rw [hr, hval]
    · rw [Function.update_noteq hie] at hir
      exact hinv.coh i r hir
  · -- closure of the updated memo under operands
    intro i hi j hj
    by_cases hje : j = e
    · subst hje
      simp [Function.update_same]
    · rw [Function.update_noteq hje]
      by_cases hie : i = e
      · subst hie
        exact hready j hj
      · rw [Function.update_noteq hie] at hi
        exact hinv.closed i hi j hj
  · -- the extended trace still records operand values
    intro p hp
    rcases List.mem_append.mp hp with h | h
    · exact hinv.logOk p h
    · have hpe : p = (e, (ops e).map (fun o => (v o).getD default)) :=
        List.mem_singleton.mp h
      rw [hpe]
      exact hargs
  · -- previously memoized entries unchanged
    intro i hi
    by_cases hie : i = e
    · subst hie
      obtain ⟨r, hr⟩ := Option.isSome_iff_exists.mp hi
      rw [Function.update_same, hr, hval, hinv.coh i r hr]
    · rw [Function.update_noteq hie]
  · -- the only new memo entry is the logged node
    intro i hi
    by_cases hie : i = e
    · subst hie
      right
      simp
    · left
      rw [Function.update_noteq hie] at hi
      exact hi
  · exact ⟨[(e, (ops e).map (fun o => (v o).getD default))], rfl⟩
  · simp [Function.update_same]

/-- Main lemma on the `postvisitor` loop: from a state whose top-of-stack is
`e`, under the loop invariant, finitely many iterations pop `e` (and
everything pushed while processing it), leaving the rest of the stack; the
invariant is restored, `e` is memoized, and memoized entries only grew. -/
theorem pv_run_one {R C : Type} [Inhabited R] (ops : Nat → List Nat)
    (hops : ∀ i j, j ∈ ops i → j < i) (fn : Nat → List R → C → R) (ctx : C)
    (e : Nat) :
    ∀ s v log, PVInv ops fn ctx v log →
      ∃ k v2 log2,
        (pvStep ops fn ctx)^[k] ⟨e :: s, v, log⟩ = ⟨s, v2, log2⟩ ∧
        PVPost ops fn ctx v log v2 log2 ∧ (v2 e).isSome := by
  induction e using Nat.strong_induction_on with
  | _ e IH =>
    have hlist : ∀ l, (∀ c ∈ l, c < e) → ∀ s v log, PVInv ops fn ctx v log →
        ∃ k v2 log2,
          (pvStep ops fn ctx)^[k] ⟨l ++ s, v, log⟩ = ⟨s, v2, log2⟩ ∧
          PVPost ops fn ctx v log v2 log2 ∧ (∀ c ∈ l, (v2 c).isSome) := by
      intro l
      induction l with
      | nil =>
          intro _ s v log hinv
          exact ⟨0, v, log, rfl, pvpost_refl ops fn ctx v log hinv, by simp⟩
      | cons c l' ihl =>
          intro hlt s v log hinv
          obtain ⟨k1, v1, log1, hr1, hp1, hs1⟩ :=
            IH c (hlt c (by simp)) (l' ++ s) v log hinv
          obtain ⟨k2, v2, log2, hr2, hp2, hs2⟩ :=
            ihl (fun x hx => hlt x (by simp [hx])) s v1 log1 hp1.inv
          refine ⟨k2 + k1, v2, log2, ?_, pvpost_trans ops fn ctx v log v1 log1 v2 log2 hp1 hp2, ?_⟩
          · exact pvIter_comp ops fn ctx k1 k2 _ _ _ hr1 hr2
          · intro x hx
            rcases List.mem_cons.mp hx with h | h
            · subst h
              rw [hp2.mono x hs1]
              exact hs1
            · exact hs2 x h
    intro s v log hinv
    by_cases hf : (ops e).filter (fun o => (v o).isNone) = []
    · -- every operand already memoized: one visiting step suffices
      have hready : ∀ o ∈ ops e, (v o).isSome := by
        intro o ho
        have h := List.filter_eq_nil_iff.mp hf o ho
        cases hvo : v o
        · rw [hvo] at h
          simp at h
        · simp
      obtain ⟨v2, log2, hstep, hpost, hsome⟩ :=
        pv_visit_post ops hops fn ctx e s v log hready hinv
      exact ⟨1, v2, log2, by simpa using hstep, hpost, hsome⟩
    · -- re-push `e` below its unmemoized operands, process them, then visit
      have hpush := pvStep_push ops fn ctx e s v log hf
      have hlt : ∀ c ∈ ((ops e).filter (fun o => (v o).isNone)).reverse, c < e := by
        intro c hc
        exact hops e c (List.mem_of_mem_filter (List.mem_reverse.mp hc))
      obtain ⟨k1, v1, log1, hr1, hp1, hall⟩ :=
        hlist ((ops e).filter (fun o => (v o).isNone)).reverse hlt (e :: s) v log hinv
      have hready1 : ∀ o ∈ ops e, (v1 o).isSome := by
        intro o ho
        cases hvo : v o with
        | none =>
            have hmem : o ∈ (ops e).filter (fun o => (v o).isNone) :=
              List.mem_filter.mpr ⟨ho, by simp [hvo]⟩
            exact hall o (List.mem_reverse.mpr hmem)
        | some r =>
            have hsome : (v o).isSome := by simp [hvo]
            rw [hp1.mono o hsome]
            exact hsome
      obtain ⟨v2, log2, hstep2, hpost2, hsome2⟩ :=
        pv_visit_post ops hops fn ctx e s v1 log1 hready1 hp1.inv
      have c1 : (pvStep ops fn ctx)^[1] ⟨e :: s, v, log⟩ =
          ⟨((ops e).filter (fun o => (v o).isNone)).reverse ++ e :: s, v, log⟩ := by
        simpa using hpush
      have c2 := pvIter_comp ops fn ctx 1 k1 _ _ _ c1 hr1
      have c3 : (pvStep ops fn ctx)^[1] ⟨e :: s, v1, log1⟩ = ⟨s, v2, log2⟩ := by
        simpa using hstep2
      have c4 := pvIter_comp ops fn ctx (k1 + 1) 1 _ _ _ c2 c3
      exact ⟨1 + (k1 + 1), v2, log2, c4,
        pvpost_trans ops fn ctx v log v1 log1 v2 log2 hp1 hpost2, hsome2⟩

theorem ready_of_filter_nil {R : Type} (v : Nat → Option R) (l : List Nat)
    (hf : l.filter (fun o => (v o).isNone) = []) : ∀ o ∈ l, (v o).isSome := by
  intro o ho
  have h := List.filter_eq_nil_iff.mp hf o ho
  cases hvo : v o
  · rw [hvo] at h
    simp at h
  · simp

theorem pvStep_inv {R C : Type} [Inhabited R] (ops : Nat → List Nat)
    (hops : ∀ i j, j ∈ ops i → j < i) (fn : Nat → List R → C → R) (ctx : C)
    (st : VState R) (h : PVInv ops fn ctx st.visited st.log) :
    PVInv ops fn ctx (pvStep ops fn ctx st).visited (pvStep ops fn ctx st).log := by
  obtain ⟨stack, v, log⟩ := st
  cases stack with
  | nil =>
      rw [pvStep_nil ops fn ctx _ rfl]
      exact h
  | cons e rest =>
      by_cases hf : (ops e).filter (fun o => (v o).isNone) = []
      · obtain ⟨v2, log2, hstep, hpost, _⟩ :=
          pv_visit_post ops hops fn ctx e rest v log (ready_of_filter_nil v (ops e) hf) h
        rw [hstep]
        exact hpost.inv
      · rw [pvStep_push ops fn ctx e rest v log hf]
        exact h

theorem pv_iter_inv {R C : Type} [Inhabited R] (ops : Nat → List Nat)
    (hops : ∀ i j, j ∈ ops i → j < i) (fn : Nat → List R → C → R) (ctx : C) :
    ∀ (k : Nat) (st : VState R), PVInv ops fn ctx st.visited st.log →
      PVInv ops fn ctx ((pvStep ops fn ctx)^[k] st).visited
        ((pvStep ops fn ctx)^[k] st).log := by
  intro k
  induction k with
  | zero => exact fun st h => h
  | succ k ih =>
      intro st h
      rw [Function.iterate_succ_apply]
      exact ih _ (pvStep_inv ops hops fn ctx st h)

theorem pvInit_inv {R C : Type} [Inhabited R] (ops : Nat → List Nat)
    (fn : Nat → List R → C → R) (ctx : C) :
    PVInv ops fn ctx (fun _ => (none : Option R)) [] := by
  refine ⟨?_, ?_, ?_⟩
  · intro i r h
    simp at h
  · intro i h
    simp at h
  · intro p hp
    simp at hp

/-- C7: for every finite acyclic expression DAG (embedded through a
topological numbering of node instances), the `postvisitor` work-stack loop
reaches an empty stack after finitely many iterations. -/
theorem postvisitor_terminates {R C : Type} [Inhabited R] (ops : Nat → List Nat)
    (hops : ∀ i j, j ∈ ops i → j < i) (fn : Nat → List R → C → R) (ctx : C)
    (root : Nat) :
    ∃ k, ((pvStep ops fn ctx)^[k] (pvInit root)).stack = [] := by
  obtain ⟨k, v2, log2, hrun, _, _⟩ :=
    pv_run_one ops hops fn ctx root [] (fun _ => none) [] (pvInit_inv ops fn ctx)
  refine ⟨k, ?_⟩
  have hini : (pvInit root : VState R) = ⟨root :: [], fun _ => none, []⟩ := rfl
  rw [hini, hrun]

/-- C2: on every finite acyclic DAG, once the `postvisitor` loop has emptied
its stack, the returned memo entry for the root is the bottom-up value
`denote`, i.e. the value obtained by combining every node strictly after its
operands, with operand results in left-to-right order and the auxiliary
context passed through unchanged (`denote_eq` is exactly that recursion);
moreover every combine invocation the loop ever makes receives exactly the
bottom-up values of the node's operands, in operand order. -/
theorem postvisitor_correct {R C : Type} [Inhabited R] (ops : Nat → List Nat)
    (hops : ∀ i j, j ∈ ops i → j < i) (fn : Nat → List R → C → R) (ctx : C)
    (root : Nat) :
    (∀ k, ((pvStep ops fn ctx)^[k] (pvInit root)).stack = [] →
        postvisitor ops fn ctx root k = some (denote ops fn ctx root)) ∧
    (∀ k p, p ∈ ((pvStep ops fn ctx)^[k] (pvInit root)).log →
        p.2 = (ops p.1).map (denote ops fn ctx)) := by
  constructor
  · intro k hk
    obtain ⟨k0, v2, log2, hrun, hpost, hsome⟩ :=
      pv_run_one ops hops fn ctx root [] (fun _ => none) [] (pvInit_inv ops fn ctx)
    have hini : (pvInit root : VState R) = ⟨root :: [], fun _ => none, []⟩ := rfl
    have hfinal : (pvStep ops fn ctx)^[k] (pvInit root) = ⟨[], v2, log2⟩ := by
      rcases Nat.le_total k k0 with h | h
      · have heq : (pvStep ops fn ctx)^[k0] (pvInit root) =
            (pvStep ops fn ctx)^[k0 - k] ((pvStep ops fn ctx)^[k] (pvInit root)) := by
          rw [← Function.iterate_add_apply]
          congr 1
          omega
        rw [pvIter_nil ops fn ctx _ hk] at heq
        rw [← heq, hini, hrun]
      · have heq : (pvStep ops fn ctx)^[k] (pvInit root) =
            (pvStep ops fn ctx)^[k - k0] ((pvStep ops fn ctx)^[k0] (pvInit root)) := by
          rw [← Function.iterate_add_apply]
          congr 1
          omega
        rw [heq, hini, hrun, pvIter_nil ops fn ctx _ rfl]
    obtain ⟨r, hr⟩ := Option.isSome_iff_exists.mp hsome
    show ((pvStep ops fn ctx)^[k] (pvInit root)).visited root = _
    rw [hfinal]
    show v2 root = _
    rw [hr, hpost.inv.coh root r hr]
  · intro k p hp
    exact (pv_iter_inv ops hops fn ctx k (pvInit root) (pvInit_inv ops fn ctx)).logOk p hp

/-- C1 (amended): on every finite acyclic DAG the combine function is invoked
at least once per distinct node instance reachable from the root — every
reachable instance occurs in the invocation trace of a completed run.  (The
original claim's "exactly once" fails: a node pushed a second time before it
is first memoized is re-invoked when popped again, not skipped — see
`postvisitor_double_call`.) -/
theorem postvisitor_calls_cover {R C : Type} [Inhabited R] (ops : Nat → List Nat)
    (hops : ∀ i j, j ∈ ops i → j < i) (fn : Nat → List R → C → R) (ctx : C)
    (root : Nat) :
    ∃ k, ((pvStep ops fn ctx)^[k] (pvInit root)).stack = [] ∧
      ∀ i, Reach ops root i →
        i ∈ ((pvStep ops fn ctx)^[k] (pvInit root)).log.map Prod.fst := by
  obtain ⟨k, v2, log2, hrun, hpost, hsome⟩ :=
    pv_run_one ops hops fn ctx root [] (fun _ => none) [] (pvInit_inv ops fn ctx)
  have hini : (pvInit root : VState R) = ⟨root :: [], fun _ => none, []⟩ := rfl
  refine ⟨k, by rw [hini, hrun], ?_⟩
  intro i hreach
  rw [hini, hrun]
  have hAll : ∀ a b, Reach ops a b → (v2 a).isSome → (v2 b).isSome := by
    intro a b h
    induction h with
    | refl => exact fun hx => hx
    | step hj _ ihr => exact fun ha => ihr (hpost.inv.closed _ ha _ hj)
  have hs := hAll root i hreach hsome
  rcases hpost.newLogged i hs with h | h
  · simp at h
  · exact h

/-!
## Concrete instances

`opsEx` is the two-instance DAG in which node 1 has the *same* instance, node
0, as both of its operands (in Python: `x = Symbol("x"); y = x * x`, where
both operand slots of `y` reference one object).  `opsBin`/`data…` embed the
concrete three-instance trees of the spec's examples.
-/

def opsEx : Nat → List Nat := fun i => if i = 1 then [0, 0] else []

theorem opsEx_lt : ∀ i j, j ∈ opsEx i → j < i := by
  intro i j h
  by_cases hi : i = 1
  · subst hi
    simp [opsEx] at h
    omega
  · simp [opsEx, hi] at h

/-- A sample combine function for counting runs of the traversal. -/
def cfn : Nat → List Nat → Unit → Nat := fun i os _ => i + os.sum

/-- C1 counterexample: on the DAG whose root (node 1) has the single instance
node 0 twice among its operands, a completed `postvisitor` run invokes the
combine function three times — nodes `[0, 0, 1]` in order — although only two
distinct node instances are reachable; node 0, pushed twice before its first
memoization, is combined twice rather than skipped. -/
theorem postvisitor_double_call :
    ((pvStep opsEx cfn ())^[4] (pvInit 1)).stack = [] ∧
    ((pvStep opsEx cfn ())^[4] (pvInit 1)).log.map Prod.fst = [0, 0, 1] := by
  constructor
  · rfl
  · rfl

/-- Witness for `postvisitor_calls_cover` on the concrete shared-operand
DAG. -/
theorem postvisitor_calls_cover_wit :
    ∃ k, ((pvStep opsEx cfn ())^[k] (pvInit 1)).stack = [] ∧
      ∀ i, Reach opsEx 1 i →
        i ∈ ((pvStep opsEx cfn ())^[k] (pvInit 1)).log.map Prod.fst :=
  postvisitor_calls_cover opsEx opsEx_lt cfn () 1

/-- Witness for `postvisitor_terminates` on the concrete shared-operand
DAG. -/
theorem postvisitor_terminates_wit :
    ∃ k, ((pvStep opsEx cfn ())^[k] (pvInit 1)).stack = [] :=
  postvisitor_terminates opsEx opsEx_lt cfn () 1

/-- Witness for `postvisitor_correct`: on the concrete shared-operand DAG the
loop is finished after 4 iterations and returns the bottom-up value of the
root, which evaluates to 1. -/
theorem postvisitor_correct_wit :
    postvisitor opsEx cfn () 1 4 = some (denote opsEx cfn () 1) ∧
    denote opsEx cfn () 1 = 1 :=
  ⟨(postvisitor_correct opsEx opsEx_lt cfn () 1).1 4 (by rfl), by rfl⟩

/-!
## Differentiation through the traversal

The source differentiates by `postvisitor(expr, differentiate, var=var)`.
The combine function here receives the `Except`-wrapped operand results; a
raised exception aborts the Python traversal, modelled by error propagation. -/

/-- The combine function `differentiate` as passed to `postvisitor` over a
heap whose node instance `i` is the expression `data i`: operand failures
propagate, otherwise the dispatch table is applied to the node, the operand
results in left-to-right order, and the keyword argument `var`. -/
def diffFn (data : Nat → Expr) (i : Nat) (os : List (Except String Expr))
    (var : String) : Except String Expr :=
  match os.mapM (fun x => x) with
  | .error m => .error m
  | .ok os2 => differentiate (data i) os2 var

/-- Three-instance binary tree shape: root 2 with operands 0 and 1. -/
def opsBin : Nat → List Nat := fun i => if i = 2 then [0, 1] else []

theorem opsBin_lt : ∀ i j, j ∈ opsBin i → j < i := by
  intro i j h
  by_cases hi : i = 2
  · subst hi
    simp [opsBin] at h
    omega
  · simp [opsBin, hi] at h

/-- Node instances of `Symbol("x") ** Number(3)`. -/
def dataPow3 : Nat → Expr := fun i =>
  if i = 0 then .Symbol "x"
  else if i = 1 then .Number 3
  else .Pow (.Symbol "x") (.Number 3)

/-- Node instances of `Symbol("x") * Symbol("x")` (two distinct `Symbol`
instances, as two constructor calls produce in Python). -/
def dataMulXX : Nat → Expr := fun i =>
  if i = 0 then .Symbol "x"
  else if i = 1 then .Symbol "x"
  else .Mul (.Symbol "x") (.Symbol "x")

/-- C3: the `Pow` differentiation rule returns `b * (a ^ (b - 1)) * o0` with
the exponent operand `b` used un-differentiated; running the full traversal on
`Symbol("x") ** Number(3)` with respect to `"x"` yields exactly
`3 * (x ^ (3 - 1)) * 1`, which evaluates identically to `3 * (x ^ 2) * 1`
under every assignment. -/
theorem differentiate_pow_rule :
    (∀ (a b o0 : Expr) (rest : List Expr) (var : String),
        differentiate (.Pow a b) (o0 :: rest) var =
          .ok (.Mul (.Mul b (.Pow a (.Sub b (.Number 1)))) o0)) ∧
    postvisitor opsBin (diffFn dataPow3) "x" 2 4 =
      some (.ok (.Mul (.Mul (.Number 3)
        (.Pow (.Symbol "x") (.Sub (.Number 3) (.Number 1)))) (.Number 1))) ∧
    (∀ env : String → ℚ,
      evalExpr (.Mul (.Mul (.Number 3)
          (.Pow (.Symbol "x") (.Sub (.Number 3) (.Number 1)))) (.Number 1)) env =
        evalExpr (.Mul (.Mul (.Number 3)
          (.Pow (.Symbol "x") (.Number 2))) (.Number 1)) env) := by
  refine ⟨fun a b o0 rest var => rfl, by rfl, ?_⟩
  intro env
  have h2 : (3 : ℚ) - 1 = 2 := by norm_num
  simp [evalExpr, h2]

/-- C5: the `Mul` differentiation rule returns `o0 * b + o1 * a` (product rule
with the original un-differentiated operands), and the full traversal on
`Symbol("x") * Symbol("x")` with respect to `"x"` yields the unsimplified
`1 * x + 1 * x` — structurally, and in rendered form — not a folded `2 * x`. -/
theorem differentiate_mul_rule :
    (∀ (a b o0 o1 : Expr) (rest : List Expr) (var : String),
        differentiate (.Mul a b) (o0 :: o1 :: rest) var =
          .ok (.Add (.Mul o0 b) (.Mul o1 a))) ∧
    postvisitor opsBin (diffFn dataMulXX) "x" 2 4 =
      some (.ok (.Add (.Mul (.Number 1) (.Symbol "x"))
        (.Mul (.Number 1) (.Symbol "x")))) ∧
    strExpr (.Add (.Mul (.Number 1) (.Symbol "x"))
        (.Mul (.Number 1) (.Symbol "x"))) = "1 * x + 1 * x" := by
  exact ⟨fun a b o0 o1 rest var => rfl, by rfl, by rfl⟩

/-- C4: differentiating a `Number` node yields `Number(0)` whatever the
target; differentiating a `Symbol` node compares the stored payload with the
target by equality and yields `Number(1)` on a match and `Number(0)`
otherwise; through the full traversal, `d Symbol("x") / d "x" = Number(1)` and
`d Symbol("x") / d "y" = Number(0)`. -/
theorem differentiate_terminal_rules :
    (∀ (q : ℚ) (o : List Expr) (var : String),
        differentiate (.Number q) o var = .ok (.Number 0)) ∧
    (∀ (s : String) (o : List Expr) (var : String),
        differentiate (.Symbol s) o var =
          .ok (if s = var then .Number 1 else .Number 0)) ∧
    postvisitor (fun _ => []) (diffFn (fun _ => .Symbol "x")) "x" 0 1 =
      some (.ok (.Number 1)) ∧
    postvisitor (fun _ => []) (diffFn (fun _ => .Symbol "x")) "y" 0 1 =
      some (.ok (.Number 0)) := by
  exact ⟨fun q o var => rfl, fun s o var => rfl, by rfl, by rfl⟩

/-- C9: dispatching the differentiation combine function on a node of a kind
with no registered rule — the base `Expression` class or any unregistered
operator kind — fails immediately with the unsupported-node-kind error naming
the kind, never with a partial or default result. -/
theorem differentiate_unregistered :
    ∀ (name : String) (a b : Expr) (o : List Expr) (var : String),
      differentiate (.Generic name a b) o var =
        .error ("Cannot differentiate a " ++ name) :=
  fun name a b o var => rfl

/-- Spec rank and source precedence attribute agree on every node kind. -/
theorem rank_eq : ∀ e : Expr, specRank e = Expr.precedence e := by
  intro e
  cases e <;> rfl

/-- C6: rendering agrees with the spec's rank table — an operand is
parenthesized if and only if its rank (Power=1, Multiply/Divide=2,
Add/Subtract=3, terminals 0) strictly exceeds the current operator's rank —
and on the spec's two examples produces `"(a + b) * c"` and `"a + b * c"`. -/
theorem render_parenthesization :
    (∀ e : Expr, genericFree e = true → strExpr e = strSpec e) ∧
    strExpr (.Mul (.Add (.Symbol "a") (.Symbol "b")) (.Symbol "c")) = "(a + b) * c" ∧
    strExpr (.Add (.Symbol "a") (.Mul (.Symbol "b") (.Symbol "c"))) = "a + b * c" := by
  refine ⟨?_, by rfl, by rfl⟩
  intro e
  induction e with
  | Number v => intro _; rfl
  | Symbol s => intro _; rfl
  | Add a b iha ihb =>
      intro h
      simp only [genericFree, Bool.and_eq_true] at h
      simp only [strExpr, strSpec, iha h.1, ihb h.2, rank_eq]
  | Sub a b iha ihb =>
      intro h
      simp only [genericFree, Bool.and_eq_true] at h
      simp only [strExpr, strSpec, iha h.1, ihb h.2, rank_eq]
  | Mul a b iha ihb =>
      intro h
      simp only [genericFree, Bool.and_eq_true] at h
      simp only [strExpr, strSpec, iha h.1, ihb h.2, rank_eq]
  | Div a b iha ihb =>
      intro h
      simp only [genericFree, Bool.and_eq_true] at h
      simp only [strExpr, strSpec, iha h.1, ihb h.2, rank_eq]
  | Pow a b iha ihb =>
      intro h
      simp only [genericFree, Bool.and_eq_true] at h
      simp only [strExpr, strSpec, iha h.1, ihb h.2, rank_eq]
  | Generic n a b iha ihb =>
      intro h
      simp [genericFree] at h

/-- Witness for `render_parenthesization` at the concrete expression
`(a + b) * c`. -/
theorem render_parenthesization_wit :
    strExpr (.Mul (.Add (.Symbol "a") (.Symbol "b")) (.Symbol "c")) =
      strSpec (.Mul (.Add (.Symbol "a") (.Symbol "b")) (.Symbol "c")) :=
  render_parenthesization.1 (.Mul (.Add (.Symbol "a") (.Symbol "b")) (.Symbol "c")) rfl

/-- C8: constructing a `Number` from a numeric payload succeeds and stores the
payload unchanged; constructing it from a non-numeric payload fails with the
`TypeError` inside the constructor itself, so the failure is synchronous with
construction and never deferred. -/
theorem number_construction_checked :
    ∀ v : PyVal,
      (v.isNum = true → ∃ q, v = .num q ∧ mkNumber v = .ok (.Number q)) ∧
      (v.isNum = false → ∃ m, mkNumber v = .error m) := by
  intro v
  cases v <;> simp [PyVal.isNum, mkNumber]

/-- Witness for `number_construction_checked` at a numeric and a string
payload. -/
theorem number_construction_checked_wit :
    (∃ q, PyVal.num 3 = PyVal.num q ∧ mkNumber (.num 3) = .ok (.Number q)) ∧
    (∃ m, mkNumber (.str "a") = .error m) :=
  ⟨(number_construction_checked (.num 3)).1 rfl,
    (number_construction_checked (.str "a")).2 rfl⟩

/-- C10: each reflected operator hook promotes its non-`Expression` left
argument with `Number(...)` unconditionally, so for a value that is not
numeric every one of `v + e`, `v - e`, `v * e`, `v / e`, `v ** e` fails with
the constructor's `TypeError` instead of building an operator node. -/
theorem reflected_ops_promote :
    ∀ (v : PyVal) (e : Expr), v.isNum = false →
      radd v e = .error (numTypeError v) ∧
      rsub v e = .error (numTypeError v) ∧
      rmul v e = .error (numTypeError v) ∧
      rdiv v e = .error (numTypeError v) ∧
      rpow v e = .error (numTypeError v) := by
  intro v e h
  cases v with
  | num q => simp [PyVal.isNum] at h
  | str s => exact ⟨rfl, rfl, rfl, rfl, rfl⟩
  | pyNone => exact ⟨rfl, rfl, rfl, rfl, rfl⟩

/-- Witness for `reflected_ops_promote` at `None + Symbol("x")` and its four
siblings. -/
theorem reflected_ops_promote_wit :
    radd .pyNone (.Symbol "x") = .error (numTypeError .pyNone) ∧
    rsub .pyNone (.Symbol "x") = .error (numTypeError .pyNone) ∧
    rmul .pyNone (.Symbol "x") = .error (numTypeError .pyNone) ∧
    rdiv .pyNone (.Symbol "x") = .error (numTypeError .pyNone) ∧
    rpow .pyNone (.Symbol "x") = .error (numTypeError .pyNone) :=
  reflected_ops_promote .pyNone (.Symbol "x") rfl

end Expressions
